import Mathlib

/-!
Verification of `scripts/auto_indent.py`, a heuristic re-indenter for HTML
and CSS files.  The Python source is shallowly embedded over `List Char`:

* `format_html` — the markup reindenter (tokenizer + depth machine);
* `format_css`  — the stylesheet reindenter (brace-depth tracker);
* `process_model` — the pure part of `process_file` (extension dispatch and
  the write-back decision).

Python exceptions (the `IndexError` reachable from `is_self_closing` on
degenerate tags) are modelled with `Option`/an explicit crash flag.
Python whitespace is modelled by its six ASCII whitespace characters.
-/

namespace AutoIndent

/-- ASCII whitespace, the characters Python's `str.strip`/`\s` treat as
whitespace for ASCII text. -/
def isSpace (c : Char) : Bool :=
  c = ' ' || c = '\t' || c = '\n' || c = '\r' || c = '\x0b' || c = '\x0c'

/-- Python `str.lstrip()`. -/
def lstrip (s : List Char) : List Char := s.dropWhile isSpace

/-- Python `str.rstrip()` (drop trailing whitespace). -/
def rstrip : List Char → List Char
  | [] => []
  | c :: t =>
    match rstrip t with
    | [] => if isSpace c then [] else [c]
    | r => c :: r

/-- Python `str.strip()`. -/
def strip (s : List Char) : List Char := rstrip (lstrip s)

/-- Python `str.strip(chars)`: drop the characters of `cs` from both ends. -/
def stripSet (cs : List Char) (s : List Char) : List Char :=
  ((s.dropWhile (cs.contains ·)).reverse.dropWhile (cs.contains ·)).reverse

/-- Python `str.split('\n')`. -/
def splitNl : List Char → List (List Char)
  | [] => [[]]
  | c :: rest =>
    if c = '\n' then [] :: splitNl rest
    else
      match splitNl rest with
      | l :: ls => (c :: l) :: ls
      | [] => [[c]]

/-- Python `'\n'.join(lines)`. -/
def joinNl : List (List Char) → List Char
  | [] => []
  | [l] => l
  | l :: ls => l ++ '\n' :: joinNl ls

/-- `text.replace('\r\n', '\n').replace('\r', '\n')`. -/
def normNL : List Char → List Char
  | [] => []
  | '\r' :: '\n' :: rest => '\n' :: normNL rest
  | '\r' :: rest => '\n' :: normNL rest
  | c :: rest => c :: normNL rest

/-- `text.replace('\t', '  ')`. -/
def expandTabs (s : List Char) : List Char :=
  s.flatMap fun c => if c = '\t' then [' ', ' '] else [c]

/-- First whitespace-delimited word, i.e. Python `s.split()[0]`; `none` when
`s.split()` is empty and the indexing would raise `IndexError`. -/
def firstWord? (s : List Char) : Option (List Char) :=
  let w := (s.dropWhile isSpace).takeWhile (fun c => !isSpace c)
  if w.isEmpty then none else some w

/-- Index of the first occurrence of `c` (Python `str.index`/`find`). -/
def findIdxChar (c : Char) : List Char → Option Nat
  | [] => none
  | x :: rest => if x = c then some 0 else (findIdxChar c rest).map (· + 1)

/-- Index of the first occurrence of `pat` as a contiguous sublist. -/
def findSub (pat : List Char) : List Char → Option Nat
  | [] => if pat.isEmpty then some 0 else none
  | s@(_ :: rest) => if pat.isPrefixOf s then some 0 else (findSub pat rest).map (· + 1)

/-! ### Fixed vocabularies of the source -/

/-- `VOID_ELEMENTS` from the source. -/
def VOID_ELEMENTS : List (List Char) :=
  ["area", "base", "br", "col", "embed", "hr", "img", "input", "link",
   "meta", "param", "source", "track", "wbr"].map String.toList

def SCRIPT : List Char := "script".toList
def STYLE : List Char := "style".toList
def commentOpen : List Char := "<!--".toList
def commentClose : List Char := "-->".toList
def doctypeU : List Char := "<!DOCTYPE".toList
def closeStart : List Char := "</".toList

/-! ### Tokenizer

`token_re = re.compile(r'(<!--.*?-->|<!DOCTYPE.*?>|<[^>]+>|[^<]+)', re.S | re.I)`
applied with `findall`: at each position the four alternatives are tried in
order; on failure the scan advances one character (so such a character is
dropped from the token stream). -/

/-- Alternative 1: `<!--.*?-->` (lazy, DOTALL). -/
def tryComment (s : List Char) : Option (List Char) :=
  if commentOpen.isPrefixOf s then
    (findSub commentClose (s.drop 4)).map fun i => s.take (4 + i + 3)
  else none

/-- Alternative 2: `<!DOCTYPE.*?>` (lazy, DOTALL, case-insensitive). -/
def tryDoctype (s : List Char) : Option (List Char) :=
  if doctypeU.isPrefixOf ((s.take 9).map Char.toUpper) then
    (findIdxChar '>' (s.drop 9)).map fun i => s.take (9 + i + 1)
  else none

/-- Alternative 3: `<[^>]+>`. -/
def tryTag (s : List Char) : Option (List Char) :=
  match s with
  | '<' :: rest =>
    match findIdxChar '>' rest with
    | some j => if 1 ≤ j then some (s.take (j + 2)) else none
    | none => none
  | _ => none

/-- Alternative 4: `[^<]+` (greedy). -/
def tryText (s : List Char) : Option (List Char) :=
  match s with
  | c :: _ => if c = '<' then none else some (s.takeWhile (· ≠ '<'))
  | [] => none

/-- One match attempt of `token_re` at the current position. -/
def tryToken (s : List Char) : Option (List Char) :=
  match tryComment s with
  | some t => some t
  | none =>
    match tryDoctype s with
    | some t => some t
    | none =>
      match tryTag s with
      | some t => some t
      | none => tryText s

/-- `token_re.findall`, fuelled; every successful match consumes at least one
character and every failure advances one character, so fuel `s.length`
(used by `tokenize`) never runs out. -/
def tokenizeF : Nat → List Char → List (List Char)
  | 0, _ => []
  | _ + 1, [] => []
  | f + 1, s@(_ :: rest) =>
    match tryToken s with
    | some tok => tok :: tokenizeF f (s.drop tok.length)
    | none => tokenizeF f rest

/-- `tokens = token_re.findall(text)`. -/
def tokenize (s : List Char) : List (List Char) := tokenizeF s.length s

/-! ### The markup depth machine (`format_html`) -/

/-- One entry of `out_lines`: either the empty string appended for a blank
interior line of an opaque block, or an indented line `'  ' * depth + content`.
The depth is kept as a Python `int`. -/
inductive OutLine
  | blank
  | line (depth : Int) (content : List Char)
deriving DecidableEq

/-- Depth used for an emitted line (`0` for the literal empty string). -/
def lineDepth : OutLine → Int
  | .blank => 0
  | .line d _ => d

/-- Stripped content of an emitted line. -/
def stripLine : OutLine → List Char
  | .blank => []
  | .line _ c => strip c

/-- `'  ' * indent + content` (Python gives `''` for a non-positive factor). -/
def renderLine : OutLine → List Char
  | .blank => []
  | .line d c => List.replicate (2 * d.toNat) ' ' ++ c

/-- `re.match(r'<\s*([a-zA-Z0-9:-]+)', tok_strip)` and `.group(1).lower()`,
with `''` (here `[]`) when the match fails. -/
def isNameChar (c : Char) : Bool := c.isAlpha || c.isDigit || c = ':' || c = '-'

def tagName (ts : List Char) : List Char :=
  match ts with
  | '<' :: rest => ((rest.dropWhile isSpace).takeWhile isNameChar).map Char.toLower
  | _ => []

/-- `is_self_closing` from the source:
`tag.endswith('/') or tag.split()[0].lower() in VOID_ELEMENTS`.
`none` models the `IndexError` raised when `tag.split()` is empty. -/
def is_self_closing (tag : List Char) : Option Bool :=
  if ['/'].isSuffixOf tag then some true
  else
    match firstWord? tag with
    | none => none
    | some w => some (VOID_ELEMENTS.contains (w.map Char.toLower))

/-- The self-closing test of line 96 of the source:
`tok_strip.endswith('/>') or is_self_closing(tok_strip.strip('<>/ ').split()[0]
if ' ' in tok_strip else tok_strip.strip('<>/'))`. -/
def selfClosingCheck (ts : List Char) : Option Bool :=
  if ['/', '>'].isSuffixOf ts then some true
  else if ts.contains ' ' then
    match firstWord? (stripSet ['<', '>', '/', ' '] ts) with
    | none => none
    | some a => is_self_closing a
  else is_self_closing (stripSet ['<', '>', '/'] ts)

/-- `re.match(r'\s*</\s*' + tag_name + r'\s*>', t, re.I)` as a Boolean, for
`tag_name` one of the lowercase names `script`/`style`. -/
def matchCloseTok (name t : List Char) : Bool :=
  let t1 := t.dropWhile isSpace
  if closeStart.isPrefixOf t1 then
    let t2 := (t1.drop 2).dropWhile isSpace
    if name.isPrefixOf (t2.map Char.toLower) then
      ((t2.drop name.length).dropWhile isSpace).head? == some '>'
    else false
  else false

/-- The inner `while` of the opaque branch: collect tokens until the first one
matching the closing pattern; returns `(inner, matched closing token?, rest)`.
When no token matches, everything is consumed: `(toks, none, [])`. -/
def collectOpaque (name : List Char) : List (List Char) → List (List Char) × Option (List Char) × List (List Char)
  | [] => ([], none, [])
  | t :: rest =>
    if matchCloseTok name t then ([], some t, rest)
    else
      let r := collectOpaque name rest
      (t :: r.1, r.2.1, r.2.2)

/-- Lines 82–87 of the source: the accumulated interior, split on newlines;
blank lines become the empty string, other lines are emitted at the current
(already incremented) depth with trailing whitespace stripped. -/
def opaqueLines (d : Int) (innerText : List Char) : List OutLine :=
  (splitNl innerText).map fun l =>
    if (strip l).isEmpty then OutLine.blank else OutLine.line d (rstrip l)

/-- Lines 109–113 of the source: a text node, split on newlines; blank lines
are dropped, other lines are stripped and emitted at the current depth. -/
def textLines (d : Int) (tok : List Char) : List OutLine :=
  (splitNl tok).filterMap fun l =>
    if (strip l).isEmpty then none else some (OutLine.line d (strip l))

/-- The token loop of `format_html` (lines 41–114), fuelled: each iteration
consumes at least one token, so fuel `toks.length` (used by `processTokens`)
never runs out.  The Boolean is the crash flag: `true` when the self-closing
test raised `IndexError`, in which case no further line is emitted. -/
def processTokensF : Nat → Int → List (List Char) → List OutLine × Bool
  | 0, _, _ => ([], false)
  | _ + 1, _, [] => ([], false)
  | f + 1, indent, tok :: rest =>
    let ts := strip tok
    if ts.isEmpty then
      processTokensF f indent rest
    else if commentOpen.isPrefixOf ts || doctypeU.isPrefixOf (ts.map Char.toUpper) then
      let r := processTokensF f indent rest
      (OutLine.line indent ts :: r.1, r.2)
    else if ts.head? = some '<' then
      if closeStart.isPrefixOf ts then
        let d := max (indent - 1) 0
        let r := processTokensF f d rest
        (OutLine.line d ts :: r.1, r.2)
      else
        let name := tagName ts
        if name = SCRIPT || name = STYLE then
          let co := collectOpaque name rest
          let block := opaqueLines (indent + 1) co.1.flatten
          match co.2.1 with
          | some c =>
            let d := max (indent + 1 - 1) 0
            let r := processTokensF f d co.2.2
            (OutLine.line indent ts :: (block ++ OutLine.line d (strip c) :: r.1), r.2)
          | none => (OutLine.line indent ts :: block, false)
        else
          match selfClosingCheck ts with
          | none => ([], true)
          | some true =>
            let r := processTokensF f indent rest
            (OutLine.line indent ts :: r.1, r.2)
          | some false =>
            let r := processTokensF f (indent + 1) rest
            (OutLine.line indent ts :: r.1, r.2)
    else
      let r := processTokensF f indent rest
      (textLines indent tok ++ r.1, r.2)

def processTokens (indent : Int) (toks : List (List Char)) : List OutLine × Bool :=
  processTokensF toks.length indent toks

/-- `format_html` (lines 29–117): `none` models the run that raises
`IndexError` instead of returning. -/
def format_html (text : List Char) : Option (List Char) :=
  let t := expandTabs (normNL text)
  let r := processTokens 0 (tokenize t)
  if r.2 then none
  else some (rstrip (joinNl (r.1.map renderLine)) ++ ['\n'])

/-! ### The stylesheet reindenter (`format_css`) -/

/-- The line loop of `format_css` (lines 126–140) producing `(depth, line)`
pairs.  The final `if '{' in line and '}' in line and ...: pass` of the source
is a no-op and adds nothing here. -/
def cssCore (depth : Int) : List (List Char) → List (Int × List Char)
  | [] => []
  | raw :: rest =>
    let line := strip raw
    if line.isEmpty then cssCore depth rest
    else
      let d := if line.head? = some '}' then max (depth - 1) 0 else depth
      let d2 := if ['{'].isSuffixOf line then d + 1 else d
      (d, line) :: cssCore d2 rest

/-- `'  ' * depth + line`. -/
def renderCss (p : Int × List Char) : List Char :=
  List.replicate (2 * p.1.toNat) ' ' ++ p.2

/-- `format_css` (lines 120–141). -/
def format_css (text : List Char) : List Char :=
  let t := expandTabs (normNL text)
  rstrip (joinNl ((cssCore 0 (splitNl t)).map renderCss)) ++ ['\n']

/-! ### The dispatcher (`process_file`) -/

/-- Final path component (after the last `/`).  `Path.name`, modelled for
paths whose last component is a plain file name. -/
def pathName (path : List Char) : List Char :=
  (path.reverse.takeWhile (· ≠ '/')).reverse

/-- `Path.suffix`: the part of the name from its last dot, when that dot is
neither the first nor the last character of the name; otherwise empty. -/
def pySuffix (path : List Char) : List Char :=
  let name := pathName path
  match findIdxChar '.' name.reverse with
  | none => []
  | some k =>
    let i := name.length - 1 - k
    if 0 < i ∧ i < name.length - 1 then name.drop i else []

/-- The text `process_file` computes for a file (lines 145–152); `none` when
`format_html` raises. -/
def process_model (path text : List Char) : Option (List Char) :=
  let suf := (pySuffix path).map Char.toLower
  if suf = ".html".toList ∨ suf = ".htm".toList then format_html text
  else if suf = ".css".toList then some (format_css text)
  else some (expandTabs text)

/-- Whether `process_file` writes the file back (line 154: `if new != text`);
an exception writes nothing. -/
def writesFile (path text : List Char) : Bool :=
  match process_model path text with
  | some n => n != text
  | none => false

/-- The classification the spec describes for claim C6: text ends in the
self-close suffix, or the element name (first identifier after the opening
angle bracket, lowercased) is in the void set.  Stated from the spec's words,
to compare with the source's `selfClosingCheck`. -/
def specSelfClosing (ts : List Char) : Bool :=
  ['/', '>'].isSuffixOf ts || VOID_ELEMENTS.contains (tagName ts)

/-- The stripped non-blank lines of a raw line list — the only data
`format_css`'s loop actually consumes. -/
def nonblankStrips (L : List (List Char)) : List (List Char) :=
  (L.map strip).filter fun l => !l.isEmpty

/-- `cssCore` on lines that are already stripped and non-blank. -/
def cssEmit (depth : Int) : List (List Char) → List (Int × List Char)
  | [] => []
  | l :: rest =>
    let d := if l.head? = some '}' then max (depth - 1) 0 else depth
    let d2 := if ['{'].isSuffixOf l then d + 1 else d
    (d, l) :: cssEmit d2 rest

/-! ## Whitespace algebra -/

theorem rstrip_cons (c : Char) (t : List Char) :
    rstrip (c :: t) =
      if rstrip t = [] then (if isSpace c then [] else [c]) else c :: rstrip t := by
  cases h : rstrip t with
  | nil => simp [rstrip, h]
  | cons x xs => simp [rstrip, h]

theorem rstrip_idem (s : List Char) : rstrip (rstrip s) = rstrip s := by
  induction s with
  | nil => rfl
  | cons c t ih =>
    rw [rstrip_cons]
    by_cases h : rstrip t = []
    · by_cases hc : isSpace c
      · simp [h, hc, rstrip]
      · simp [h, hc, rstrip_cons, rstrip]
    · rw [if_neg h, rstrip_cons, ih, if_neg h]

theorem lstrip_idem (s : List Char) : lstrip (lstrip s) = lstrip s :=
  List.dropWhile_idempotent _ _

theorem lstrip_cons_of_not {c : Char} (t : List Char) (hc : ¬ isSpace c = true) :
    lstrip (c :: t) = c :: t := by
  simp [lstrip, List.dropWhile_cons, hc]

/-- A list fixed by `lstrip` is still fixed by `lstrip` after `rstrip`. -/
theorem lstrip_rstrip_self : ∀ {s : List Char}, lstrip s = s → lstrip (rstrip s) = rstrip s := by
  intro s h
  cases s with
  | nil => rfl
  | cons c t =>
    have hc : ¬ isSpace c = true := by
      intro hc
      have h2 : lstrip t = c :: t := by
        have : lstrip (c :: t) = lstrip t := by simp [lstrip, List.dropWhile_cons, hc]
        rw [h] at this
        exact this.symm
      have hle : (lstrip t).length ≤ t.length := (List.dropWhile_sublist _).length_le
      rw [h2] at hle
      simp at hle
    rw [rstrip_cons]
    by_cases ht : rstrip t = []
    · by_cases hsc : isSpace c
      · exact absurd hsc hc
      · simp [ht, hsc, lstrip_cons_of_not _ hc]
    · rw [if_neg ht]
      exact lstrip_cons_of_not _ hc

theorem strip_idem (s : List Char) : strip (strip s) = strip s := by
  unfold strip
  rw [lstrip_rstrip_self (lstrip_idem s), rstrip_idem]

theorem rstrip_append_of_ne {ys : List Char} (xs : List Char) (h : rstrip ys ≠ []) :
    rstrip (xs ++ ys) = xs ++ rstrip ys := by
  induction xs with
  | nil => rfl
  | cons c t ih =>
    rw [List.cons_append, rstrip_cons, ih]
    have : t ++ rstrip ys ≠ [] := by
      intro he
      exact h (List.append_eq_nil.mp he).2
    rw [if_neg this, List.cons_append]

theorem lstrip_replicate_append (n : Nat) (l : List Char) :
    lstrip (List.replicate n ' ' ++ l) = lstrip l := by
  induction n with
  | zero => rfl
  | succ n ih =>
    rw [List.replicate_succ, List.cons_append]
    simp only [lstrip, List.dropWhile_cons] at ih ⊢
    rw [if_pos (by decide : isSpace ' ' = true)]
    exact ih

theorem strip_replicate_append (n : Nat) (l : List Char) :
    strip (List.replicate n ' ' ++ l) = strip l := by
  unfold strip
  rw [lstrip_replicate_append]

theorem lstrip_rstrip_comm (s : List Char) : lstrip (rstrip s) = rstrip (lstrip s) := by
  induction s with
  | nil => rfl
  | cons c t ih =>
    by_cases hc : isSpace c
    · have hl : lstrip (c :: t) = lstrip t := by simp [lstrip, List.dropWhile_cons, hc]
      rw [rstrip_cons, hl]
      by_cases h : rstrip t = []
      · have h2 : rstrip (lstrip t) = [] := by rw [← ih, h]; rfl
        rw [if_pos h, if_pos hc, h2]
        rfl
      · rw [if_neg h]
        have h3 : lstrip (c :: rstrip t) = lstrip (rstrip t) := by
          simp [lstrip, List.dropWhile_cons, hc]
        rw [h3, ih]
    · have hl : lstrip (c :: t) = c :: t := lstrip_cons_of_not _ hc
      rw [hl, rstrip_cons]
      by_cases h : rstrip t = []
      · rw [if_pos h, if_neg hc]
        exact lstrip_cons_of_not _ hc
      · rw [if_neg h]
        exact lstrip_cons_of_not _ hc

theorem strip_rstrip (s : List Char) : strip (rstrip s) = strip s := by
  unfold strip
  rw [lstrip_rstrip_comm, rstrip_idem]

theorem mem_of_mem_lstrip {c : Char} {s : List Char} (h : c ∈ lstrip s) : c ∈ s :=
  (List.dropWhile_sublist _).subset h

theorem mem_of_mem_rstrip {c : Char} : ∀ {s : List Char}, c ∈ rstrip s → c ∈ s := by
  intro s
  induction s with
  | nil => simp [rstrip]
  | cons a t ih =>
    rw [rstrip_cons]
    by_cases h : rstrip t = []
    · by_cases ha : isSpace a
      · simp [h, ha]
      · simp only [h, if_pos, if_neg ha, List.mem_singleton, if_true]
        intro hc
        simp [hc]
    · rw [if_neg h]
      intro hc
      rcases List.mem_cons.mp hc with h1 | h2
      · simp [h1]
      · exact List.mem_cons_of_mem _ (ih h2)

theorem mem_of_mem_strip {c : Char} {s : List Char} (h : c ∈ strip s) : c ∈ s :=
  mem_of_mem_lstrip (mem_of_mem_rstrip h)

/-! ## Lines: `splitNl` and `joinNl` -/

theorem splitNl_ne_nil (s : List Char) : splitNl s ≠ [] := by
  cases s with
  | nil => simp [splitNl]
  | cons c rest =>
    simp only [splitNl]
    by_cases h : c = '\n'
    · simp [h]
    · rw [if_neg h]
      cases splitNl rest <;> simp

theorem splitNl_of_not_mem : ∀ {l : List Char}, '\n' ∉ l → splitNl l = [l] := by
  intro l
  induction l with
  | nil => intro _; rfl
  | cons c t ih =>
    intro h
    have hc : c ≠ '\n' := fun e => h (by simp [e])
    have ht : '\n' ∉ t := fun m => h (List.mem_cons_of_mem _ m)
    simp only [splitNl, if_neg hc, ih ht]

theorem splitNl_append {l : List Char} (r : List Char) (h : '\n' ∉ l) :
    splitNl (l ++ '\n' :: r) = l :: splitNl r := by
  induction l with
  | nil => simp [splitNl]
  | cons c t ih =>
    have hc : c ≠ '\n' := fun e => h (by simp [e])
    have ht : '\n' ∉ t := fun m => h (List.mem_cons_of_mem _ m)
    rw [List.cons_append]
    simp only [splitNl, if_neg hc, ih ht]

theorem splitNl_joinNl : ∀ {ls : List (List Char)}, (∀ l ∈ ls, '\n' ∉ l) → ls ≠ [] →
    splitNl (joinNl ls) = ls := by
  intro ls
  induction ls with
  | nil => intro _ h; exact absurd rfl h
  | cons a t ih =>
    intro hmem _
    cases t with
    | nil => simp [joinNl, splitNl_of_not_mem (hmem a (by simp))]
    | cons b u =>
      have h1 : joinNl (a :: b :: u) = a ++ '\n' :: joinNl (b :: u) := rfl
      rw [h1, splitNl_append _ (hmem a (by simp)),
        ih (fun l hl => hmem l (List.mem_cons_of_mem _ hl)) (by simp)]

theorem joinNl_append_nil : ∀ {ls : List (List Char)}, ls ≠ [] →
    joinNl (ls ++ [[]]) = joinNl ls ++ ['\n'] := by
  intro ls
  induction ls with
  | nil => intro h; exact absurd rfl h
  | cons a t ih =>
    intro _
    cases t with
    | nil => rfl
    | cons b u =>
      have h1 : joinNl ((a :: b :: u) ++ [[]]) = a ++ '\n' :: joinNl ((b :: u) ++ [[]]) := rfl
      have h2 : joinNl (a :: b :: u) = a ++ '\n' :: joinNl (b :: u) := rfl
      rw [h1, ih (by simp), h2]
      simp

theorem mem_joinNl {c : Char} : ∀ {ls : List (List Char)}, c ∈ joinNl ls →
    c = '\n' ∨ ∃ l ∈ ls, c ∈ l := by
  intro ls
  induction ls with
  | nil => intro h; simp [joinNl] at h
  | cons a t ih =>
    intro h
    cases t with
    | nil => exact Or.inr ⟨a, by simp, h⟩
    | cons b u =>
      have h1 : joinNl (a :: b :: u) = a ++ '\n' :: joinNl (b :: u) := rfl
      rw [h1] at h
      rcases List.mem_append.mp h with h2 | h3
      · exact Or.inr ⟨a, by simp, h2⟩
      · rcases List.mem_cons.mp h3 with h4 | h5
        · exact Or.inl h4
        · rcases ih h5 with h6 | ⟨l, hl, hcl⟩
          · exact Or.inl h6
          · exact Or.inr ⟨l, List.mem_cons_of_mem _ hl, hcl⟩

theorem not_mem_of_mem_splitNl : ∀ {s l : List Char}, l ∈ splitNl s → '\n' ∉ l := by
  intro s
  induction s with
  | nil =>
    intro l h
    simp [splitNl] at h
    simp [h]
  | cons c rest ih =>
    intro l h
    by_cases hc : c = '\n'
    · simp only [splitNl, if_pos hc] at h
      rcases List.mem_cons.mp h with h1 | h2
      · simp [h1]
      · exact ih h2
    · simp only [splitNl, if_neg hc] at h
      cases hs : splitNl rest with
      | nil => exact absurd hs (splitNl_ne_nil rest)
      | cons m ms =>
        rw [hs] at h
        rcases List.mem_cons.mp h with h1 | h2
        · subst h1
          intro hx
          rcases List.mem_cons.mp hx with e | hm
          · exact hc e.symm
          · exact ih (by rw [hs]; exact List.mem_cons_self m ms) hm
        · exact ih (by rw [hs]; exact List.mem_cons_of_mem _ h2)

theorem mem_of_mem_splitNl {c : Char} : ∀ {s l : List Char}, l ∈ splitNl s → c ∈ l → c ∈ s := by
  intro s
  induction s with
  | nil =>
    intro l h hc
    simp [splitNl] at h
    subst h
    simp at hc
  | cons a rest ih =>
    intro l h hc
    by_cases ha : a = '\n'
    · simp only [splitNl, if_pos ha] at h
      rcases List.mem_cons.mp h with h1 | h2
      · subst h1; simp at hc
      · exact List.mem_cons_of_mem _ (ih h2 hc)
    · simp only [splitNl, if_neg ha] at h
      cases hs : splitNl rest with
      | nil => exact absurd hs (splitNl_ne_nil rest)
      | cons m ms =>
        rw [hs] at h
        rcases List.mem_cons.mp h with h1 | h2
        · subst h1
          rcases List.mem_cons.mp hc with e | hm
          · simp [e]
          · exact List.mem_cons_of_mem _ (ih (by rw [hs]; exact List.mem_cons_self m ms) hm)
        · exact List.mem_cons_of_mem _ (ih (by rw [hs]; exact List.mem_cons_of_mem _ h2) hc)

/-! ## Normalization passes -/

theorem not_mem_normNL (s : List Char) : '\r' ∉ normNL s := by
  induction s using normNL.induct with
  | case1 => simp [normNL]
  | case2 rest ih => simp [normNL, ih]
  | case3 rest h ih => simp [normNL, ih]
  | case4 c rest h1 h2 ih =>
    simp [normNL, h1, h2, ih]
    exact fun e => h2 e.symm

theorem normNL_eq_self : ∀ {s : List Char}, '\r' ∉ s → normNL s = s := by
  intro s
  induction s using normNL.induct with
  | case1 => intro _; rfl
  | case2 rest ih => intro h; simp at h
  | case3 rest h0 ih => intro h; simp at h
  | case4 c rest h1 h2 ih =>
    intro h
    have hc : ¬ c = '\r' := fun e => h2 e
    have hr : '\r' ∉ rest := fun m => h (List.mem_cons_of_mem _ m)
    simp [normNL, h1, h2, ih hr]

theorem not_tab_mem_expandTabs (s : List Char) : '\t' ∉ expandTabs s := by
  intro h
  rcases List.mem_flatMap.mp h with ⟨c, _, hc⟩
  by_cases e : c = '\t'
  · simp [e] at hc
  · simp [e] at hc
    exact e hc.symm

theorem mem_expandTabs {c : Char} {s : List Char} (h : c ∈ expandTabs s) :
    c ∈ s ∨ c = ' ' := by
  rcases List.mem_flatMap.mp h with ⟨b, hb, hc⟩
  by_cases e : b = '\t'
  · simp [e] at hc
    exact Or.inr hc
  · simp [e] at hc
    exact Or.inl (hc ▸ hb)

theorem expandTabs_eq_self : ∀ {s : List Char}, '\t' ∉ s → expandTabs s = s := by
  intro s
  induction s with
  | nil => intro _; rfl
  | cons c t ih =>
    intro h
    have hc : ¬ c = '\t' := fun e => h (by simp [e])
    have ht : '\t' ∉ t := fun m => h (List.mem_cons_of_mem _ m)
    simp only [expandTabs, List.flatMap_cons, if_neg hc]
    simp only [expandTabs] at ih
    rw [ih ht]
    rfl

/-! ## The stylesheet reindenter: structure lemmas -/

theorem cssCore_eq_cssEmit : ∀ (L : List (List Char)) (depth : Int),
    cssCore depth L = cssEmit depth (nonblankStrips L) := by
  intro L
  induction L with
  | nil => intro depth; rfl
  | cons raw rest ih =>
    intro depth
    by_cases h : (strip raw).isEmpty
    · have h1 : nonblankStrips (raw :: rest) = nonblankStrips rest := by
        simp [nonblankStrips, h]
      simp only [cssCore, if_pos h, h1]
      exact ih depth
    · have h1 : nonblankStrips (raw :: rest) = strip raw :: nonblankStrips rest := by
        simp [nonblankStrips, h]
      simp only [cssCore, if_neg h, h1, cssEmit]
      rw [ih]

theorem mem_nonblankStrips {l : List Char} {L : List (List Char)}
    (h : l ∈ nonblankStrips L) :
    strip l = l ∧ rstrip l = l ∧ l ≠ [] := by
  have h1 := List.mem_of_mem_filter h
  have h2 : ¬ l.isEmpty := by
    have := List.of_mem_filter h
    simpa using this
  rcases List.mem_map.mp h1 with ⟨raw, _, hraw⟩
  subst hraw
  refine ⟨strip_idem raw, ?_, by simpa [List.isEmpty_iff] using h2⟩
  show rstrip (rstrip (lstrip raw)) = rstrip (lstrip raw)
  exact rstrip_idem _

theorem cssEmit_snd : ∀ (S : List (List Char)) (d : Int),
    (cssEmit d S).map Prod.snd = S := by
  intro S
  induction S with
  | nil => intro d; rfl
  | cons l rest ih =>
    intro d
    simp only [cssEmit, List.map_cons, ih]

theorem cssEmit_strip_map : ∀ (S : List (List Char)) (d : Int),
    (∀ l ∈ S, strip l = l) →
    ((cssEmit d S).map fun p => strip (renderCss p)) = S := by
  intro S
  induction S with
  | nil => intro d _; rfl
  | cons l rest ih =>
    intro d hS
    simp only [cssEmit, List.map_cons]
    rw [ih _ fun x hx => hS x (List.mem_cons_of_mem _ hx)]
    congr 1
    show strip (List.replicate (2 * _) ' ' ++ l) = l
    rw [strip_replicate_append]
    exact hS l (List.mem_cons_self _ _)

theorem joinNl_cons_ne_nil {b : List Char} (u : List (List Char)) (hb : b ≠ []) :
    joinNl (b :: u) ≠ [] := by
  cases u with
  | nil => exact hb
  | cons v w =>
    have h : joinNl (b :: v :: w) = b ++ '\n' :: joinNl (v :: w) := rfl
    rw [h]
    simp

theorem rstrip_joinNl_fix : ∀ {Out : List (List Char)},
    (∀ l ∈ Out, rstrip l = l ∧ l ≠ []) → rstrip (joinNl Out) = joinNl Out := by
  intro Out
  induction Out with
  | nil => intro _; rfl
  | cons a t ih =>
    intro h
    cases t with
    | nil => exact (h a (by simp)).1
    | cons b u =>
      have h1 : joinNl (a :: b :: u) = a ++ '\n' :: joinNl (b :: u) := rfl
      have hJ : rstrip (joinNl (b :: u)) = joinNl (b :: u) :=
        ih fun l hl => h l (List.mem_cons_of_mem _ hl)
      have hne : joinNl (b :: u) ≠ [] :=
        joinNl_cons_ne_nil u (h b (by simp)).2
      have h2 : rstrip ('\n' :: joinNl (b :: u)) = '\n' :: joinNl (b :: u) := by
        rw [rstrip_cons, hJ, if_neg hne]
      rw [h1, rstrip_append_of_ne a (by rw [h2]; simp), h2]

theorem renderCss_fix {l : List Char} (d : Int) (hr : rstrip l = l) (hl : l ≠ []) :
    rstrip (renderCss (d, l)) = renderCss (d, l) ∧ renderCss (d, l) ≠ [] := by
  constructor
  · show rstrip (List.replicate (2 * d.toNat) ' ' ++ l) = _
    rw [rstrip_append_of_ne _ (by rw [hr]; exact hl), hr]
    rfl
  · show List.replicate (2 * d.toNat) ' ' ++ l ≠ []
    simp [hl]

theorem mem_nonblankStrips_src {l : List Char} {L : List (List Char)}
    (h : l ∈ nonblankStrips L) : ∃ raw ∈ L, l = strip raw := by
  have h1 := List.mem_of_mem_filter h
  rcases List.mem_map.mp h1 with ⟨raw, hraw, he⟩
  exact ⟨raw, hraw, he.symm⟩

theorem mem_renderCss {c : Char} {p : Int × List Char} (h : c ∈ renderCss p) :
    c = ' ' ∨ c ∈ p.2 := by
  rcases List.mem_append.mp h with h1 | h2
  · exact Or.inl (List.eq_of_mem_replicate h1)
  · exact Or.inr h2

theorem mem_cssEmit_snd {p : Int × List Char} {S : List (List Char)} {d : Int}
    (h : p ∈ cssEmit d S) : p.2 ∈ S := by
  rw [← cssEmit_snd S d]
  exact List.mem_map_of_mem _ h

/-- Every character of `format_css`'s output is a newline, a space, or a
character of the normalized input. -/
theorem format_css_chars {c : Char} {text : List Char}
    (h : c ∈ format_css text) :
    c = '\n' ∨ c = ' ' ∨ c ∈ expandTabs (normNL text) := by
  have h0 : c ∈ rstrip (joinNl ((cssCore 0 (splitNl (expandTabs (normNL text)))).map renderCss)) ∨ c = '\n' := by
    rcases List.mem_append.mp h with h1 | h2
    · exact Or.inl h1
    · exact Or.inr (by simpa using h2)
  rcases h0 with h1 | h2
  · have h3 := mem_of_mem_rstrip h1
    rcases mem_joinNl h3 with h4 | ⟨line, hline, hcl⟩
    · exact Or.inl h4
    · rcases List.mem_map.mp hline with ⟨p, hp, he⟩
      rcases mem_renderCss (he ▸ hcl) with h5 | h6
      · exact Or.inr (Or.inl h5)
      · rw [cssCore_eq_cssEmit] at hp
        have h7 := mem_cssEmit_snd hp
        rcases mem_nonblankStrips_src h7 with ⟨raw, hraw, he2⟩
        have h8 : c ∈ raw := mem_of_mem_strip (he2 ▸ h6)
        exact Or.inr (Or.inr (mem_of_mem_splitNl hraw h8))
  · exact Or.inl h2

/-- `format_css` depends only on the stripped non-blank lines. -/
theorem format_css_eq_emit (text : List Char) :
    format_css text =
      rstrip (joinNl ((cssEmit 0 (nonblankStrips (splitNl (expandTabs (normNL text))))).map renderCss)) ++ ['\n'] := by
  show rstrip (joinNl ((cssCore 0 (splitNl (expandTabs (normNL text)))).map renderCss)) ++ ['\n'] = _
  rw [cssCore_eq_cssEmit]

/-- Idempotence of `format_css`, proved here as a helper and re-stated as the
amended claim C1. -/
theorem format_css_idem (text : List Char) : format_css (format_css text) = format_css text := by
  have hT_t : '\t' ∉ expandTabs (normNL text) := not_tab_mem_expandTabs _
  have hT_r : '\r' ∉ expandTabs (normNL text) := by
    intro h
    rcases mem_expandTabs h with h1 | h2
    · exact not_mem_normNL text h1
    · exact absurd h2 (by decide)
  have hfacts : ∀ l ∈ nonblankStrips (splitNl (expandTabs (normNL text))),
      strip l = l ∧ rstrip l = l ∧ l ≠ [] := fun l hl => mem_nonblankStrips hl
  have hnl : ∀ l ∈ nonblankStrips (splitNl (expandTabs (normNL text))), '\n' ∉ l := by
    intro l hl hmem
    rcases mem_nonblankStrips_src hl with ⟨raw, hraw, he⟩
    exact not_mem_of_mem_splitNl hraw (mem_of_mem_strip (he ▸ hmem))
  have hchars0 := fun c => @format_css_chars c text
  rw [format_css_eq_emit text]
  rw [format_css_eq_emit text] at hchars0
  cases hSe : nonblankStrips (splitNl (expandTabs (normNL text))) with
  | nil =>
    decide
  | cons l0 S2 =>
    rw [hSe] at hfacts hnl hchars0
    have hOut : ∀ line ∈ (cssEmit 0 (l0 :: S2)).map renderCss, rstrip line = line ∧ line ≠ [] := by
      intro line hline
      rcases List.mem_map.mp hline with ⟨p, hp, he⟩
      have h2 := mem_cssEmit_snd hp
      rcases hfacts p.2 h2 with ⟨_, hr, hne⟩
      have h3 := renderCss_fix p.1 hr hne
      rw [← he]
      exact ⟨h3.1, h3.2⟩
    have hOutNl : ∀ line ∈ (cssEmit 0 (l0 :: S2)).map renderCss, '\n' ∉ line := by
      intro line hline hmem
      rcases List.mem_map.mp hline with ⟨p, hp, he⟩
      rcases mem_renderCss (he ▸ hmem) with h1 | h2
      · exact absurd h1 (by decide)
      · exact hnl p.2 (mem_cssEmit_snd hp) h2
    have hJfix : rstrip (joinNl ((cssEmit 0 (l0 :: S2)).map renderCss)) =
        joinNl ((cssEmit 0 (l0 :: S2)).map renderCss) := rstrip_joinNl_fix hOut
    rw [hJfix] at hchars0 ⊢
    have hOutne : (cssEmit 0 (l0 :: S2)).map renderCss ≠ [] := by
      simp [cssEmit]
    have hRr : '\r' ∉ joinNl ((cssEmit 0 (l0 :: S2)).map renderCss) ++ ['\n'] := by
      intro h
      rcases hchars0 '\r' h with h1 | h1 | h1
      · exact absurd h1 (by decide)
      · exact absurd h1 (by decide)
      · exact hT_r h1
    have hRt : '\t' ∉ joinNl ((cssEmit 0 (l0 :: S2)).map renderCss) ++ ['\n'] := by
      intro h
      rcases hchars0 '\t' h with h1 | h1 | h1
      · exact absurd h1 (by decide)
      · exact absurd h1 (by decide)
      · exact hT_t h1
    have hnorm : expandTabs (normNL (joinNl ((cssEmit 0 (l0 :: S2)).map renderCss) ++ ['\n'])) =
        joinNl ((cssEmit 0 (l0 :: S2)).map renderCss) ++ ['\n'] := by
      rw [normNL_eq_self hRr, expandTabs_eq_self hRt]
    have hjoin : joinNl ((cssEmit 0 (l0 :: S2)).map renderCss) ++ ['\n'] =
        joinNl (((cssEmit 0 (l0 :: S2)).map renderCss) ++ [[]]) :=
      (joinNl_append_nil hOutne).symm
    have hsplit : splitNl (joinNl ((cssEmit 0 (l0 :: S2)).map renderCss) ++ ['\n']) =
        ((cssEmit 0 (l0 :: S2)).map renderCss) ++ [[]] := by
      rw [hjoin]
      apply splitNl_joinNl
      · intro l hl
        rcases List.mem_append.mp hl with h1 | h2
        · exact hOutNl l h1
        · simp at h2
          simp [h2]
      · simp
    have hnbs : nonblankStrips (((cssEmit 0 (l0 :: S2)).map renderCss) ++ [[]]) = l0 :: S2 := by
      unfold nonblankStrips
      rw [List.map_append, List.filter_append, List.map_map]
      have h1 : ((cssEmit 0 (l0 :: S2)).map (strip ∘ renderCss)) = l0 :: S2 :=
        cssEmit_strip_map (l0 :: S2) 0 fun l hl => (hfacts l hl).1
      rw [h1]
      have h2 : (List.filter (fun l => !l.isEmpty) (List.map strip [[]])) = ([] : List (List Char)) := by
        decide
      rw [h2, List.append_nil]
      apply List.filter_eq_self.mpr
      intro a ha
      simpa using (hfacts a ha).2.2
    rw [format_css_eq_emit, hnorm, hsplit, hnbs, hJfix]

/-! ## The markup depth machine: structure lemmas -/

theorem isPrefixOf_cons2 (a b : Char) (as bs : List Char) :
    (a :: as).isPrefixOf (b :: bs) = (a == b && as.isPrefixOf bs) := rfl

theorem collectOpaque_rem_le (name : List Char) : ∀ (toks : List (List Char)),
    (collectOpaque name toks).2.2.length ≤ toks.length := by
  intro toks
  induction toks with
  | nil => simp [collectOpaque]
  | cons t rest ih =>
    simp only [collectOpaque]
    by_cases h : matchCloseTok name t = true
    · simp [if_pos h]
    · simp only [if_neg h]
      exact Nat.le_succ_of_le ih

theorem collectOpaque_of_none (name : List Char) : ∀ {toks : List (List Char)},
    (∀ t ∈ toks, matchCloseTok name t = false) →
    collectOpaque name toks = (toks, none, []) := by
  intro toks
  induction toks with
  | nil => intro _; rfl
  | cons t rest ih =>
    intro h
    have ht : matchCloseTok name t = false := h t (by simp)
    simp only [collectOpaque, ht, Bool.false_eq_true, if_false]
    rw [ih fun x hx => h x (List.mem_cons_of_mem _ hx)]

theorem processTokensF_fuel : ∀ (f g : Nat) (indent : Int) (toks : List (List Char)),
    toks.length ≤ f → toks.length ≤ g →
    processTokensF f indent toks = processTokensF g indent toks := by
  intro f
  induction f with
  | zero =>
    intro g indent toks hf _
    have h0 : toks = [] := List.eq_nil_of_length_eq_zero (Nat.le_zero.mp hf)
    subst h0
    cases g <;> rfl
  | succ f ih =>
    intro g indent toks hf hg
    cases toks with
    | nil => cases g <;> rfl
    | cons tok rest =>
      cases g with
      | zero => simp at hg
      | succ g2 =>
        have hr : rest.length ≤ f := by simpa using hf
        have hg2 : rest.length ≤ g2 := by simpa using hg
        simp only [processTokensF]
        by_cases h1 : (strip tok).isEmpty = true
        · simp only [if_pos h1]
          exact ih g2 indent rest hr hg2
        · simp only [if_neg h1]
          by_cases h2 : (commentOpen.isPrefixOf (strip tok) ||
              doctypeU.isPrefixOf ((strip tok).map Char.toUpper)) = true
          · simp only [if_pos h2, ih g2 indent rest hr hg2]
          · simp only [if_neg h2]
            by_cases h3 : (strip tok).head? = some '<'
            · simp only [if_pos h3]
              by_cases h4 : closeStart.isPrefixOf (strip tok) = true
              · simp only [if_pos h4, ih g2 (max (indent - 1) 0) rest hr hg2]
              · simp only [if_neg h4]
                by_cases h5 : (tagName (strip tok) = SCRIPT || tagName (strip tok) = STYLE) = true
                · simp only [if_pos h5]
                  cases hco : (collectOpaque (tagName (strip tok)) rest).2.1 with
                  | none => simp only [hco]
                  | some c =>
                    simp only [hco]
                    have hrem : (collectOpaque (tagName (strip tok)) rest).2.2.length ≤ rest.length :=
                      collectOpaque_rem_le _ _
                    rw [ih g2 (max (indent + 1 - 1) 0) (collectOpaque (tagName (strip tok)) rest).2.2
                      (le_trans hrem hr) (le_trans hrem hg2)]
                · simp only [if_neg h5]
                  cases hsc : selfClosingCheck (strip tok) with
                  | none => simp only [hsc]
                  | some b =>
                    cases b with
                    | true => simp only [hsc, ih g2 indent rest hr hg2]
                    | false => simp only [hsc, ih g2 (indent + 1) rest hr hg2]
            · simp only [if_neg h3, ih g2 indent rest hr hg2]

theorem lineDepth_opaqueLines {l : OutLine} {d : Int} {L : List Char} (hd : 0 ≤ d)
    (h : l ∈ opaqueLines d L) : 0 ≤ lineDepth l := by
  rcases List.mem_map.mp h with ⟨x, _, he⟩
  by_cases hx : (strip x).isEmpty = true
  · simp [← he, hx, lineDepth]
  · simp [← he, hx, lineDepth, hd]

theorem lineDepth_textLines {l : OutLine} {d : Int} {tok : List Char} (hd : 0 ≤ d)
    (h : l ∈ textLines d tok) : 0 ≤ lineDepth l := by
  rcases List.mem_filterMap.mp h with ⟨x, _, he⟩
  by_cases hx : (strip x).isEmpty = true
  · simp [hx] at he
  · simp only [if_neg hx, Option.some.injEq] at he
    simp [← he, lineDepth, hd]

theorem processTokensF_nonneg : ∀ (f : Nat) (indent : Int) (toks : List (List Char)),
    0 ≤ indent → ∀ l ∈ (processTokensF f indent toks).1, 0 ≤ lineDepth l := by
  intro f
  induction f with
  | zero => intro indent toks _ l hl; simp [processTokensF] at hl
  | succ f ih =>
    intro indent toks hind l hl
    cases toks with
    | nil => simp [processTokensF] at hl
    | cons tok rest =>
      simp only [processTokensF] at hl
      by_cases h1 : (strip tok).isEmpty = true
      · rw [if_pos h1] at hl
        exact ih indent rest hind l hl
      · rw [if_neg h1] at hl
        by_cases h2 : (commentOpen.isPrefixOf (strip tok) ||
            doctypeU.isPrefixOf ((strip tok).map Char.toUpper)) = true
        · rw [if_pos h2] at hl
          rcases List.mem_cons.mp hl with he | htl
          · simp [he, lineDepth, hind]
          · exact ih indent rest hind l htl
        · rw [if_neg h2] at hl
          by_cases h3 : (strip tok).head? = some '<'
          · rw [if_pos h3] at hl
            by_cases h4 : closeStart.isPrefixOf (strip tok) = true
            · rw [if_pos h4] at hl
              have hd : (0 : Int) ≤ max (indent - 1) 0 := le_max_right _ _
              rcases List.mem_cons.mp hl with he | htl
              · simp [he, lineDepth, hd]
              · exact ih _ rest hd l htl
            · rw [if_neg h4] at hl
              by_cases h5 : (tagName (strip tok) = SCRIPT || tagName (strip tok) = STYLE) = true
              · rw [if_pos h5] at hl
                cases hco : (collectOpaque (tagName (strip tok)) rest).2.1 with
                | none =>
                  rw [hco] at hl
                  rcases List.mem_cons.mp hl with he | htl
                  · simp [he, lineDepth, hind]
                  · exact lineDepth_opaqueLines (by linarith) htl
                | some c =>
                  rw [hco] at hl
                  have hd : (0 : Int) ≤ max (indent + 1 - 1) 0 := le_max_right _ _
                  rcases List.mem_cons.mp hl with he | htl
                  · simp [he, lineDepth, hind]
                  · rcases List.mem_append.mp htl with hb | hc2
                    · exact lineDepth_opaqueLines (by linarith) hb
                    · rcases List.mem_cons.mp hc2 with he2 | htl2
                      · simp [he2, lineDepth, hd]
                      · exact ih _ _ hd l htl2
              · rw [if_neg h5] at hl
                cases hsc : selfClosingCheck (strip tok) with
                | none => rw [hsc] at hl; simp at hl
                | some b =>
                  rw [hsc] at hl
                  cases b with
                  | true =>
                    rcases List.mem_cons.mp hl with he | htl
                    · simp [he, lineDepth, hind]
                    · exact ih indent rest hind l htl
                  | false =>
                    rcases List.mem_cons.mp hl with he | htl
                    · simp [he, lineDepth, hind]
                    · exact ih (indent + 1) rest (by linarith) l htl
          · rw [if_neg h3] at hl
            rcases List.mem_append.mp hl with htx | htl
            · exact lineDepth_textLines hind htx
            · exact ih indent rest hind l htl

theorem cssCore_nonneg : ∀ (L : List (List Char)) (depth : Int),
    0 ≤ depth → ∀ p ∈ cssCore depth L, 0 ≤ p.1 := by
  intro L
  induction L with
  | nil => intro depth _ p hp; simp [cssCore] at hp
  | cons raw rest ih =>
    intro depth hd p hp
    simp only [cssCore] at hp
    by_cases h : (strip raw).isEmpty = true
    · rw [if_pos h] at hp
      exact ih depth hd p hp
    · rw [if_neg h] at hp
      by_cases hh : (strip raw).head? = some '}'
      · simp only [if_pos hh] at hp
        have hd2 : (0 : Int) ≤ max (depth - 1) 0 := le_max_right _ _
        rcases List.mem_cons.mp hp with he | htl
        · simp [he, hd2]
        · by_cases hb : ['{'].isSuffixOf (strip raw) = true
          · rw [if_pos hb] at htl
            exact ih _ (by linarith) p htl
          · rw [if_neg hb] at htl
            exact ih _ hd2 p htl
      · simp only [if_neg hh] at hp
        rcases List.mem_cons.mp hp with he | htl
        · simp [he, hd]
        · by_cases hb : ['{'].isSuffixOf (strip raw) = true
          · rw [if_pos hb] at htl
            exact ih _ (by linarith) p htl
          · rw [if_neg hb] at htl
            exact ih _ hd p htl

theorem nil_isPrefixOf (l : List Char) : List.isPrefixOf [] l = true := by
  cases l <;> rfl

/-- A closing-tag token: depth is first decremented saturating at zero, then
the stripped token is emitted at the new depth, and the loop continues at the
new depth. -/
theorem processTokens_cons_closing (indent : Int) (tok : List Char) (rest : List (List Char))
    (h : closeStart.isPrefixOf (strip tok) = true) :
    processTokens indent (tok :: rest) =
      (OutLine.line (max (indent - 1) 0) (strip tok) :: (processTokens (max (indent - 1) 0) rest).1,
       (processTokens (max (indent - 1) 0) rest).2) := by
  rcases List.isPrefixOf_iff_prefix.mp h with ⟨t2, ht⟩
  have hts : strip tok = '<' :: '/' :: t2 := ht.symm
  have c1 : ((strip tok).isEmpty) = false := by rw [hts]; rfl
  have c2 : (commentOpen.isPrefixOf (strip tok) ||
      doctypeU.isPrefixOf ((strip tok).map Char.toUpper)) = false := by rw [hts]; rfl
  have c3 : ((strip tok).head? = some '<') := by rw [hts]; rfl
  show processTokensF (rest.length + 1) indent (tok :: rest) = _
  simp only [processTokensF, c1, c2, c3, h, Bool.false_eq_true, if_false, if_true]
  rfl

/-- A non-opaque opening tag that the source's self-closing test accepts:
emitted at the current depth, and the loop continues at the same depth. -/
theorem processTokens_cons_selfclosing (indent : Int) (tok : List Char) (rest : List (List Char))
    (h3 : (strip tok).head? = some '<')
    (h2 : (commentOpen.isPrefixOf (strip tok) ||
      doctypeU.isPrefixOf ((strip tok).map Char.toUpper)) = false)
    (h4 : closeStart.isPrefixOf (strip tok) = false)
    (h5 : (tagName (strip tok) = SCRIPT || tagName (strip tok) = STYLE) = false)
    (hsc : selfClosingCheck (strip tok) = some true) :
    processTokens indent (tok :: rest) =
      (OutLine.line indent (strip tok) :: (processTokens indent rest).1,
       (processTokens indent rest).2) := by
  have c1 : ((strip tok).isEmpty) = false := by
    cases hh : strip tok with
    | nil => rw [hh] at h3; simp at h3
    | cons a l => simp
  show processTokensF (rest.length + 1) indent (tok :: rest) = _
  simp only [processTokensF, c1, h2, h3, h4, h5, hsc, Bool.false_eq_true, if_false, if_true]
  rfl

/-- An opaque (`script`/`style`) opening tag with no matching closing token in
the remaining stream: the opening tag is emitted, the whole remaining stream
becomes the interior block, no closing tag is emitted, nothing follows, and no
error is raised. -/
theorem processTokens_cons_opaque_none (indent : Int) (tok : List Char) (rest : List (List Char))
    (h3 : (strip tok).head? = some '<')
    (h2 : (commentOpen.isPrefixOf (strip tok) ||
      doctypeU.isPrefixOf ((strip tok).map Char.toUpper)) = false)
    (h4 : closeStart.isPrefixOf (strip tok) = false)
    (h5 : (tagName (strip tok) = SCRIPT || tagName (strip tok) = STYLE) = true)
    (hnone : ∀ t ∈ rest, matchCloseTok (tagName (strip tok)) t = false) :
    processTokens indent (tok :: rest) =
      (OutLine.line indent (strip tok) :: opaqueLines (indent + 1) rest.flatten, false) := by
  have c1 : ((strip tok).isEmpty) = false := by
    cases hh : strip tok with
    | nil => rw [hh] at h3; simp at h3
    | cons a l => simp
  show processTokensF (rest.length + 1) indent (tok :: rest) = _
  simp only [processTokensF, c1, h2, h3, h4, h5, Bool.false_eq_true, if_false, if_true,
    collectOpaque_of_none _ hnone]

/-- An opaque (`script`/`style`) opening tag whose matching closing token is
found: the opening tag is emitted at the current depth, the interior becomes a
uniformly indented block at the incremented depth, the closing token is
emitted at the decremented depth, and the loop resumes after it. -/
theorem processTokens_cons_opaque_some (indent : Int) (tok c : List Char)
    (rest inner rem : List (List Char))
    (h3 : (strip tok).head? = some '<')
    (h2 : (commentOpen.isPrefixOf (strip tok) ||
      doctypeU.isPrefixOf ((strip tok).map Char.toUpper)) = false)
    (h4 : closeStart.isPrefixOf (strip tok) = false)
    (h5 : (tagName (strip tok) = SCRIPT || tagName (strip tok) = STYLE) = true)
    (hco : collectOpaque (tagName (strip tok)) rest = (inner, some c, rem)) :
    processTokens indent (tok :: rest) =
      (OutLine.line indent (strip tok) ::
        (opaqueLines (indent + 1) inner.flatten ++
          OutLine.line (max (indent + 1 - 1) 0) (strip c) ::
            (processTokens (max (indent + 1 - 1) 0) rem).1),
       (processTokens (max (indent + 1 - 1) 0) rem).2) := by
  have c1 : ((strip tok).isEmpty) = false := by
    cases hh : strip tok with
    | nil => rw [hh] at h3; simp at h3
    | cons a l => simp
  have hlen : rem.length ≤ rest.length := by
    have := collectOpaque_rem_le (tagName (strip tok)) rest
    rw [hco] at this
    exact this
  show processTokensF (rest.length + 1) indent (tok :: rest) = _
  simp only [processTokensF, c1, h2, h3, h4, h5, Bool.false_eq_true, if_false, if_true, hco]
  rw [processTokensF_fuel rest.length rem.length (max (indent + 1 - 1) 0) rem hlen le_rfl]
  rfl

/-- Stripping each emitted interior line of an opaque block recovers the
stripped input lines, position by position. -/
theorem stripLine_opaqueLines (d : Int) (L : List Char) :
    (opaqueLines d L).map stripLine = (splitNl L).map strip := by
  unfold opaqueLines
  rw [List.map_map]
  apply List.map_congr_left
  intro l _
  by_cases h : (strip l).isEmpty = true
  · have he : strip l = [] := List.isEmpty_iff.mp h
    simp [Function.comp, h, stripLine, he]
  · simp only [Function.comp, if_neg h, stripLine]
    exact strip_rstrip l

/-! ## Claims -/

/-- C1, counterexample: `format_html` is not idempotent.  On
`"<script>x</script>"` the first pass indents the opaque interior; the second
pass treats that indentation as interior content, indents it again and turns
the surrounding newlines into preserved blank lines. -/
theorem c1_counterexample :
    format_html "<script>x</script>".toList = some "<script>\n  x\n</script>\n".toList ∧
    format_html "<script>\n  x\n</script>\n".toList =
      some "<script>\n\n    x\n\n</script>\n".toList ∧
    "<script>\n\n    x\n\n</script>\n".toList ≠ "<script>\n  x\n</script>\n".toList := by
  decide

/-- C1 (amended): the stylesheet reindenter is idempotent — for every input
text, `format_css (format_css t) = format_css t` — while the markup
reindenter is not (see the counterexample). -/
theorem c1_css_idempotent (text : List Char) :
    format_css (format_css text) = format_css text :=
  format_css_idem text

/-- C2: at every line emitted by the markup reindenter and by the stylesheet
reindenter, the indent depth used for the line's prefix is non-negative, for
every input text; every decrement saturates at zero. -/
theorem c2_depth_nonneg :
    (∀ text : List Char,
      ∀ l ∈ (processTokens 0 (tokenize (expandTabs (normNL text)))).1, 0 ≤ lineDepth l) ∧
    (∀ text : List Char,
      ∀ p ∈ cssCore 0 (splitNl (expandTabs (normNL text))), 0 ≤ p.1) :=
  ⟨fun _ l hl => processTokensF_nonneg _ 0 _ le_rfl l hl,
   fun _ p hp => cssCore_nonneg _ 0 le_rfl p hp⟩

/-- C2, witness: the stray closing tag of `"</div>"` is emitted at depth `0`,
and the line `".a{"` of a stylesheet is emitted at depth `0`. -/
theorem c2_witness :
    (0 : Int) ≤ lineDepth (OutLine.line 0 "</div>".toList) ∧
    (0 : Int) ≤ ((0 : Int), ".a\x7b".toList).1 :=
  ⟨c2_depth_nonneg.1 "</div>".toList _ (by decide),
   c2_depth_nonneg.2 ".a\x7b".toList _ (by decide)⟩

/-- C3, counterexample: on the unterminated input `"<script>x"` the
reindenter does not stop after the opening tag — it still emits the interior
`x` as an indented block line. -/
theorem c3_counterexample :
    format_html "<script>x".toList = some "<script>\n  x\n".toList ∧
    "<script>\n  x\n".toList ≠ "<script>\n".toList := by
  decide

/-- C3 (amended): when an opening `script`/`style` tag is followed by no
token matching its closing pattern, the reindenter emits the opening tag and
then the whole accumulated interior as a uniformly indented block; it emits no
closing tag and nothing after the block, and no error is raised. -/
theorem c3_unterminated_opaque (indent : Int) (tok : List Char) (rest : List (List Char))
    (h3 : (strip tok).head? = some '<')
    (h2 : (commentOpen.isPrefixOf (strip tok) ||
      doctypeU.isPrefixOf ((strip tok).map Char.toUpper)) = false)
    (h4 : closeStart.isPrefixOf (strip tok) = false)
    (h5 : (tagName (strip tok) = SCRIPT || tagName (strip tok) = STYLE) = true)
    (hnone : ∀ t ∈ rest, matchCloseTok (tagName (strip tok)) t = false) :
    processTokens indent (tok :: rest) =
      (OutLine.line indent (strip tok) :: opaqueLines (indent + 1) rest.flatten, false) :=
  processTokens_cons_opaque_none indent tok rest h3 h2 h4 h5 hnone

/-- C3, witness: `"<script>"` followed by the single token `"x"`. -/
theorem c3_witness :
    processTokens 0 ["<script>".toList, "x".toList] =
      (OutLine.line 0 (strip "<script>".toList) ::
        opaqueLines (0 + 1) ["x".toList].flatten, false) :=
  c3_unterminated_opaque 0 "<script>".toList ["x".toList]
    (by decide) (by decide) (by decide) (by decide) (by decide)

/-- C4, counterexample: interior lines are compared after `rstrip`, so
ignoring only leading whitespace does not match input to output.  On
`"<script>x \n</script>"` the interior line `"x "` is emitted as `"  x"`;
ignoring leading whitespace the input set is `{"x "}` but the output set is
`{"x"}`. -/
theorem c4_counterexample :
    format_html "<script>x \n</script>".toList = some "<script>\n  x\n\n</script>\n".toList ∧
    ((splitNl "x \n".toList).filter (fun l => !(strip l).isEmpty)).map lstrip ≠
      (["  x".toList, ([] : List Char)].filter (fun l => !(strip l).isEmpty)).map lstrip := by
  decide

/-- C4 (amended): for an opaque element whose closing token is found, the
opening tag is emitted, the interior becomes a uniformly indented block
(non-blank lines at the incremented depth with trailing whitespace stripped,
blank lines kept as empty lines), the closing token follows at the
decremented depth — and stripping surrounding whitespace from each emitted
interior line recovers, position by position, the stripped interior input
lines (hence non-blank interior content is preserved up to surrounding
whitespace, and blank interior lines are preserved in count and order). -/
theorem c4_opaque_preservation (indent : Int) (tok c : List Char)
    (rest inner rem : List (List Char))
    (h3 : (strip tok).head? = some '<')
    (h2 : (commentOpen.isPrefixOf (strip tok) ||
      doctypeU.isPrefixOf ((strip tok).map Char.toUpper)) = false)
    (h4 : closeStart.isPrefixOf (strip tok) = false)
    (h5 : (tagName (strip tok) = SCRIPT || tagName (strip tok) = STYLE) = true)
    (hco : collectOpaque (tagName (strip tok)) rest = (inner, some c, rem)) :
    processTokens indent (tok :: rest) =
      (OutLine.line indent (strip tok) ::
        (opaqueLines (indent + 1) inner.flatten ++
          OutLine.line (max (indent + 1 - 1) 0) (strip c) ::
            (processTokens (max (indent + 1 - 1) 0) rem).1),
       (processTokens (max (indent + 1 - 1) 0) rem).2) ∧
    (opaqueLines (indent + 1) inner.flatten).map stripLine =
      (splitNl inner.flatten).map strip :=
  ⟨processTokens_cons_opaque_some indent tok c rest inner rem h3 h2 h4 h5 hco,
   stripLine_opaqueLines _ _⟩

/-- C4, witness: `"<script>"`, interior token `"x"`, closing `"</script>"`. -/
theorem c4_witness :
    processTokens 0 ["<script>".toList, "x".toList, "</script>".toList] =
      (OutLine.line 0 (strip "<script>".toList) ::
        (opaqueLines (0 + 1) ["x".toList].flatten ++
          OutLine.line (max (0 + 1 - 1) 0) (strip "</script>".toList) ::
            (processTokens (max (0 + 1 - 1) 0) []).1),
       (processTokens (max (0 + 1 - 1) 0) []).2) ∧
    (opaqueLines (0 + 1) ["x".toList].flatten).map stripLine =
      (splitNl ["x".toList].flatten).map strip :=
  c4_opaque_preservation 0 "<script>".toList "</script>".toList ["x".toList, "</script>".toList]
    ["x".toList] [] (by decide) (by decide) (by decide) (by decide) (by decide)

/-- C5, counterexample: the line `".a{}.b{"` has its first opening brace
(index 2) before its first closing brace (index 3), yet processing it
increments the depth: the following line `"x"` is emitted at depth `1`,
not `0`. -/
theorem c5_counterexample :
    findIdxChar '{' ".a\x7b\x7d.b\x7b".toList = some 2 ∧
    findIdxChar '}' ".a\x7b\x7d.b\x7b".toList = some 3 ∧
    cssCore 0 [".a\x7b\x7d.b\x7b".toList, "x".toList] =
      [((0 : Int), ".a\x7b\x7d.b\x7b".toList), ((1 : Int), "x".toList)] ∧
    format_css ".a\x7b\x7d.b\x7b\nx".toList = ".a\x7b\x7d.b\x7b\n  x\n".toList ∧
    (1 : Int) ≠ 0 := by
  decide

/-- C5 (amended): a stylesheet line whose first opening brace precedes its
first closing brace cannot start with a closing brace, so the
starts-with-closing-brace decrement never applies and the line is emitted at
the incoming depth; the depth for subsequent lines is unchanged unless the
line ends with an opening brace, in which case it increases by one. -/
theorem c5_single_line_rule (depth : Int) (raw : List Char) (rest : List (List Char))
    (i j : Nat)
    (hi : findIdxChar '{' (strip raw) = some i)
    (hj : findIdxChar '}' (strip raw) = some j)
    (hij : i < j) :
    cssCore depth (raw :: rest) =
      (depth, strip raw) ::
        cssCore (if ['{'].isSuffixOf (strip raw) then depth + 1 else depth) rest := by
  have hne : (strip raw).isEmpty = false := by
    cases hh : strip raw with
    | nil => rw [hh] at hi; simp [findIdxChar] at hi
    | cons a l => simp
  have hhead : ¬ ((strip raw).head? = some '}') := by
    intro h
    cases hh : strip raw with
    | nil => rw [hh] at h; simp at h
    | cons a l =>
      rw [hh] at h
      simp only [List.head?_cons, Option.some.injEq] at h
      rw [hh] at hj
      simp only [findIdxChar, if_pos h, Option.some.injEq] at hj
      omega
  simp only [cssCore, hne, Bool.false_eq_true, if_false, if_neg hhead]

/-- C5, witness: the line `"a{b}"` (first `{` at 1, first `}` at 3) leaves
the depth at `0` for the next line. -/
theorem c5_witness :
    cssCore 0 ["a\x7bb\x7d".toList, "x".toList] =
      (0, strip "a\x7bb\x7d".toList) ::
        cssCore (if ['{'].isSuffixOf (strip "a\x7bb\x7d".toList) then 0 + 1 else 0) ["x".toList] :=
  c5_single_line_rule 0 "a\x7bb\x7d".toList ["x".toList] 1 3 (by decide) (by decide) (by decide)

/-- C6, counterexample: the tag `"<br=>"` has element name `br`, which is in
the void set, so the claim classifies it as self-closing; the source does
not — its derived key is `"br="`, not in the void set — so the tag increments
the depth and the following text `x` is emitted at depth `1`. -/
theorem c6_counterexample :
    specSelfClosing "<br=>".toList = true ∧
    selfClosingCheck "<br=>".toList = some false ∧
    format_html "<br=>x".toList = some "<br=>\n  x\n".toList ∧
    "<br=>\n  x\n".toList ≠ "<br=>\nx\n".toList := by
  decide

/-- C6 (amended): a non-opaque opening tag is treated as self-closing exactly
when `selfClosingCheck` accepts it — its text ends in `"/>"`, or its derived
key (surrounding `<`, `>`, `/`, and, when the text contains a space, also
space characters stripped, then cut at the first whitespace if a space is
present) ends in `/` or lowercases into the void-element set; key extraction
can fail for degenerate tags.  Such a tag is emitted at the current depth and
never increases the depth applied to subsequent sibling content. -/
theorem c6_selfclosing_non_nesting (indent : Int) (tok : List Char) (rest : List (List Char))
    (h3 : (strip tok).head? = some '<')
    (h2 : (commentOpen.isPrefixOf (strip tok) ||
      doctypeU.isPrefixOf ((strip tok).map Char.toUpper)) = false)
    (h4 : closeStart.isPrefixOf (strip tok) = false)
    (h5 : (tagName (strip tok) = SCRIPT || tagName (strip tok) = STYLE) = false)
    (hsc : selfClosingCheck (strip tok) = some true) :
    processTokens indent (tok :: rest) =
      (OutLine.line indent (strip tok) :: (processTokens indent rest).1,
       (processTokens indent rest).2) :=
  processTokens_cons_selfclosing indent tok rest h3 h2 h4 h5 hsc

/-- C6, witness: `"<br/>"` followed by the text token `"t"` emits both at the
same depth. -/
theorem c6_witness :
    processTokens 0 ["<br/>".toList, "t".toList] =
      (OutLine.line 0 (strip "<br/>".toList) :: (processTokens 0 ["t".toList]).1,
       (processTokens 0 ["t".toList]).2) :=
  c6_selfclosing_non_nesting 0 "<br/>".toList ["t".toList]
    (by decide) (by decide) (by decide) (by decide) (by decide)

/-- C7: a closing-tag token first decrements the depth, saturating at zero,
and the trimmed tag text is then emitted at the new depth; concretely,
`"</div><p>x</p>"` yields the stray closing tag at depth 0, `<p>` at depth 0,
`x` at depth 1, and `</p>` back at depth 0. -/
theorem c7_closing_saturation :
    (∀ (indent : Int) (tok : List Char) (rest : List (List Char)),
      closeStart.isPrefixOf (strip tok) = true →
      processTokens indent (tok :: rest) =
        (OutLine.line (max (indent - 1) 0) (strip tok) ::
          (processTokens (max (indent - 1) 0) rest).1,
         (processTokens (max (indent - 1) 0) rest).2)) ∧
    format_html "</div><p>x</p>".toList = some "</div>\n<p>\n  x\n</p>\n".toList :=
  ⟨fun indent tok rest h => processTokens_cons_closing indent tok rest h, by decide⟩

/-- C7, witness: the single stray closing tag `"</div>"` at depth 0. -/
theorem c7_witness :
    processTokens 0 ["</div>".toList] =
      (OutLine.line (max (0 - 1) 0) (strip "</div>".toList) ::
        (processTokens (max (0 - 1) 0) []).1,
       (processTokens (max (0 - 1) 0) []).2) :=
  c7_closing_saturation.1 0 "</div>".toList [] (by decide)

/-- C8: whenever the markup reindenter returns output, and always for the
stylesheet reindenter, the output is a body with no trailing whitespace
followed by exactly one line break. -/
theorem c8_trailing :
    (∀ text out : List Char, format_html text = some out →
      ∃ b, out = b ++ ['\n'] ∧ rstrip b = b) ∧
    (∀ text : List Char, ∃ b, format_css text = b ++ ['\n'] ∧ rstrip b = b) := by
  constructor
  · intro text out h
    simp only [format_html] at h
    by_cases hc : (processTokens 0 (tokenize (expandTabs (normNL text)))).2 = true
    · rw [if_pos hc] at h
      exact absurd h (by simp)
    · rw [if_neg hc] at h
      refine ⟨rstrip (joinNl ((processTokens 0 (tokenize (expandTabs (normNL text)))).1.map renderLine)),
        ?_, rstrip_idem _⟩
      exact (Option.some.injEq _ _ ▸ h).symm
  · intro text
    exact ⟨rstrip (joinNl ((cssCore 0 (splitNl (expandTabs (normNL text)))).map renderCss)),
      rfl, rstrip_idem _⟩

/-- C8, witness: the outputs for the inputs `"x"` and `"a"`. -/
theorem c8_witness :
    (∃ b, "x\n".toList = b ++ ['\n'] ∧ rstrip b = b) ∧
    (∃ b, format_css "a".toList = b ++ ['\n'] ∧ rstrip b = b) :=
  ⟨c8_trailing.1 "x".toList "x\n".toList (by decide), c8_trailing.2 "a".toList⟩

/-- C9: the dispatcher chooses by the lowercased path suffix — `.html`/`.htm`
select the markup reindenter, `.css` the stylesheet reindenter, and any other
suffix yields the input with each tab replaced by two spaces — and the file
is written back exactly when the computed text exists and differs from the
original. -/
theorem c9_dispatch (path text : List Char) :
    (((pySuffix path).map Char.toLower = ".html".toList ∨
      (pySuffix path).map Char.toLower = ".htm".toList) →
        process_model path text = format_html text) ∧
    ((pySuffix path).map Char.toLower = ".css".toList →
        process_model path text = some (format_css text)) ∧
    (¬((pySuffix path).map Char.toLower = ".html".toList ∨
       (pySuffix path).map Char.toLower = ".htm".toList) →
      (pySuffix path).map Char.toLower ≠ ".css".toList →
        process_model path text = some (expandTabs text)) ∧
    (writesFile path text = true ↔
      ∃ n, process_model path text = some n ∧ n ≠ text) := by
  refine ⟨?_, ?_, ?_, ?_⟩
  · intro h
    simp only [process_model, if_pos h]
  · intro h
    have h1 : ¬((pySuffix path).map Char.toLower = ".html".toList ∨
        (pySuffix path).map Char.toLower = ".htm".toList) := by
      rw [h]
      decide
    simp only [process_model, if_neg h1, if_pos h]
  · intro h1 h2
    simp only [process_model, if_neg h1, if_neg h2]
  · unfold writesFile
    cases hp : process_model path text with
    | none => simp
    | some n => simp [bne_iff_ne]

/-- C9, witness: `"a.CSS"` selects the stylesheet reindenter
case-insensitively. -/
theorem c9_witness :
    process_model "a.CSS".toList "x".toList = some (format_css "x".toList) :=
  (c9_dispatch "a.CSS".toList "x".toList).2.1 (by decide)

/-- C10: the tokenizing scan drops a `<` that no token alternative matches —
on input `"a < b"` the output contains no `<` at all. -/
theorem c10_char_loss :
    format_html "a < b".toList = some "a\nb\n".toList ∧ '<' ∉ "a\nb\n".toList := by
  decide

end AutoIndent

